import Mathlib

/-!
Verification of the trigger-detector decoder `THcTrigDet`
(src/src/THcTrigDet.cxx) as a shallow embedding.

The detector keeps fixed-capacity per-channel arrays (values modelled as
exact rationals, since the code only stores and copies samples and the
constants `-1.0` / `0.0`; no floating-point arithmetic occurs), a
configured channel count per kind, and channel-name lists.  `Clear`
resets part of the state before each event; `Decode` walks the raw hit
list and dispatches each hit by plane.
-/

namespace HcTrig

/-- Modelled from the spec: the fixed per-kind ADC capacity
(`fMaxAdcChannels`, declared in the missing header `THcTrigDet.h`;
the class doc comment and the spec both fix it at 100). -/
def fMaxAdcChannels : Nat := 100

/-- Modelled from the spec: the fixed per-kind TDC capacity
(`fMaxTdcChannels`, declared in the missing header `THcTrigDet.h`). -/
def fMaxTdcChannels : Nat := 100

/-- Modelled from the spec: a raw hit (`THcTrigRawHit`, external to the
core source).  It carries a plane identifier, a 1-based channel ("bar")
number `fCounter`, and accessors for a value sample (parameterized by
signal and sample index), a pedestal sample and a multiplicity count. -/
structure THcTrigRawHit where
  fPlane : Int
  fCounter : Int
  GetData : Int → Int → ℚ
  GetAdcPedestal : Int → ℚ
  GetMultiplicity : Int → Int

/-- The per-detector state of `THcTrigDet`: configured channel counts and
name lists (from `ReadDatabase`) and the fixed-capacity per-channel
arrays, modelled as functions from the array index. -/
@[ext] structure THcTrigDet where
  fNumAdc : Int
  fNumTdc : Int
  fAdcNames : List String
  fTdcNames : List String
  fAdcVal : Nat → ℚ
  fAdcPedestal : Nat → ℚ
  fAdcMultiplicity : Nat → Int
  fTdcVal : Nat → ℚ
  fTdcMultiplicity : Nat → Int

/-- Effect on an array-as-function of the loop
`for (int i=0; i<n; ++i) a[i] = v;`: sequential updates of the slots
`0, 1, ..., n-1` with `v`. -/
def setBelow (a : Nat → ℚ) (v : ℚ) : Nat → (Nat → ℚ)
  | 0 => a
  | n + 1 => Function.update (setBelow a v n) n v

/-- `THcTrigDet::Clear` (lines 159-165): per-event reset.  The base-class
`THaAnalysisObject::Clear` call touches none of the fields modelled here;
the loops zero `fAdcVal[0..fNumAdc)` and `fTdcVal[0..fNumTdc)`. -/
def Clear (s : THcTrigDet) : THcTrigDet :=
  { s with
    fAdcVal := setBelow s.fAdcVal 0 s.fNumAdc.toNat
    fTdcVal := setBelow s.fTdcVal 0 s.fNumTdc.toNat }

/-- The variable-initialization part of `THcTrigDet::Init` (lines
131-132): every `fAdcVal` and `fTdcVal` slot over the whole fixed
capacity is set to the sentinel `-1.0`.  The remainder of `Init`
(base-class initialization, hit-list setup, detector-map filling) calls
external framework code that does not touch these arrays. -/
def Init (s : THcTrigDet) : THcTrigDet :=
  { s with
    fAdcVal := setBelow s.fAdcVal (-1) fMaxAdcChannels
    fTdcVal := setBelow s.fTdcVal (-1) fMaxTdcChannels }

/-- The two error conditions `Decode` can raise: an out-of-range channel
index (from the state store) and an unsupported plane identifier (the
`std::out_of_range` throw at line 187). -/
inductive DecodeError where
  | indexError
  | unsupportedPlaneError

/-- Modelled from the spec: the bounds-checked amplitude-store write
(`write_amplitude` of spec section 4.2; the array declarations live in
the missing header `THcTrigDet.h`).  Assigns value, pedestal and
multiplicity at `index`, failing with `IndexError` when `index` is
outside `[0, capacity)`. -/
def write_amplitude (s : THcTrigDet) (index : Int) (value pedestal : ℚ)
    (multiplicity : Int) : Except DecodeError THcTrigDet :=
  if 0 ≤ index ∧ index < (fMaxAdcChannels : Int) then
    .ok { s with
      fAdcVal := Function.update s.fAdcVal index.toNat value
      fAdcPedestal := Function.update s.fAdcPedestal index.toNat pedestal
      fAdcMultiplicity := Function.update s.fAdcMultiplicity index.toNat multiplicity }
  else
    .error .indexError

/-- Modelled from the spec: the bounds-checked timing-store write
(`write_timing` of spec section 4.2).  Assigns value and multiplicity at
`index`, failing with `IndexError` when `index` is outside
`[0, capacity)`. -/
def write_timing (s : THcTrigDet) (index : Int) (value : ℚ)
    (multiplicity : Int) : Except DecodeError THcTrigDet :=
  if 0 ≤ index ∧ index < (fMaxTdcChannels : Int) then
    .ok { s with
      fTdcVal := Function.update s.fTdcVal index.toNat value
      fTdcMultiplicity := Function.update s.fTdcMultiplicity index.toNat multiplicity }
  else
    .error .indexError

/-- The loop body of `THcTrigDet::Decode` (lines 177-190) for a single
hit: plane 1 writes `GetData(0,0)`, `GetAdcPedestal(0)` and
`GetMultiplicity(0)` at index `fCounter-1` of the amplitude store;
plane 2 writes `GetData(1,0)` and `GetMultiplicity(1)` at index
`fCounter-1` of the timing store; any other plane throws. -/
def decodeHit (s : THcTrigDet) (hit : THcTrigRawHit) : Except DecodeError THcTrigDet :=
  if hit.fPlane = 1 then
    write_amplitude s (hit.fCounter - 1) (hit.GetData 0 0) (hit.GetAdcPedestal 0)
      (hit.GetMultiplicity 0)
  else if hit.fPlane = 2 then
    write_timing s (hit.fCounter - 1) (hit.GetData 1 0) (hit.GetMultiplicity 1)
  else
    .error .unsupportedPlaneError

/-- `THcTrigDet::Decode` (lines 168-196) after the external
`DecodeToHitList` has produced the ordered hit list: process the hits in
order, returning `0` after the last one.  A thrown error escapes the
loop, and the member arrays keep the values they held at the throw, so
the result pairs the final state with the outcome. -/
def Decode : THcTrigDet → List THcTrigRawHit → THcTrigDet × Except DecodeError Int
  | s, [] => (s, .ok 0)
  | s, hit :: rest =>
    match decodeHit s hit with
    | .ok s2 => Decode s2 rest
    | .error e => (s, .error e)

/-- The state after a successful (in-bounds) processing of one hit: the
write performed by the plane-1 / plane-2 branch of the `Decode` loop
body, used to describe the store contents decode leaves behind. -/
def stepHit (s : THcTrigDet) (hit : THcTrigRawHit) : THcTrigDet :=
  if hit.fPlane = 1 then
    { s with
      fAdcVal := Function.update s.fAdcVal (hit.fCounter - 1).toNat (hit.GetData 0 0)
      fAdcPedestal := Function.update s.fAdcPedestal (hit.fCounter - 1).toNat
        (hit.GetAdcPedestal 0)
      fAdcMultiplicity := Function.update s.fAdcMultiplicity (hit.fCounter - 1).toNat
        (hit.GetMultiplicity 0) }
  else if hit.fPlane = 2 then
    { s with
      fTdcVal := Function.update s.fTdcVal (hit.fCounter - 1).toNat (hit.GetData 1 0)
      fTdcMultiplicity := Function.update s.fTdcMultiplicity (hit.fCounter - 1).toNat
        (hit.GetMultiplicity 1) }
  else
    s

/-- The last amplitude hit for zero-based index `i` in input order: the
last element of the hit list whose plane is `1` and whose channel number
is `i + 1`. -/
def lastAdcHitFor (hits : List THcTrigRawHit) (i : Nat) : Option THcTrigRawHit :=
  (hits.filter fun h => h.fPlane == 1 && h.fCounter == (i : Int) + 1).getLast?

/-- The last timing hit for zero-based index `i` in input order. -/
def lastTdcHitFor (hits : List THcTrigRawHit) (i : Nat) : Option THcTrigRawHit :=
  (hits.filter fun h => h.fPlane == 2 && h.fCounter == (i : Int) + 1).getLast?

/-- A small configured detector (two ADC channels, one TDC channel),
with all array slots zero, used as a concrete evaluation state. -/
def exDet : THcTrigDet :=
  { fNumAdc := 2, fNumTdc := 1
    fAdcNames := ["x", "y"], fTdcNames := ["z"]
    fAdcVal := fun _ => 0, fAdcPedestal := fun _ => 0, fAdcMultiplicity := fun _ => 0
    fTdcVal := fun _ => 0, fTdcMultiplicity := fun _ => 0 }

/-- A one-ADC-channel detector, used to evaluate channels above the
configured count. -/
def exDet1 : THcTrigDet :=
  { fNumAdc := 1, fNumTdc := 1
    fAdcNames := ["x"], fTdcNames := ["z"]
    fAdcVal := fun _ => 0, fAdcPedestal := fun _ => 0, fAdcMultiplicity := fun _ => 0
    fTdcVal := fun _ => 0, fTdcMultiplicity := fun _ => 0 }

/-- A one-ADC-channel detector carrying nonzero array contents, used to
observe what the per-event reset leaves behind. -/
def exDetPed : THcTrigDet :=
  { fNumAdc := 1, fNumTdc := 0
    fAdcNames := ["x"], fTdcNames := []
    fAdcVal := fun _ => 3, fAdcPedestal := fun _ => 5, fAdcMultiplicity := fun _ => 2
    fTdcVal := fun _ => 4, fTdcMultiplicity := fun _ => 1 }

/-- An amplitude hit on channel 1 (value 3, pedestal 1/2, multiplicity 2). -/
def exAdcHit : THcTrigRawHit :=
  { fPlane := 1, fCounter := 1
    GetData := fun _ _ => 3, GetAdcPedestal := fun _ => 1/2, GetMultiplicity := fun _ => 2 }

/-- A second amplitude hit on channel 1 (value 7, pedestal 1,
multiplicity 3), overwriting `exAdcHit` when it comes later. -/
def exAdcHit2 : THcTrigRawHit :=
  { fPlane := 1, fCounter := 1
    GetData := fun _ _ => 7, GetAdcPedestal := fun _ => 1, GetMultiplicity := fun _ => 3 }

/-- A timing hit on channel 1 (value 9, multiplicity 1). -/
def exTdcHit : THcTrigRawHit :=
  { fPlane := 2, fCounter := 1
    GetData := fun _ _ => 9, GetAdcPedestal := fun _ => 0, GetMultiplicity := fun _ => 1 }

/-- A hit with the unsupported plane 3. -/
def exBadPlaneHit : THcTrigRawHit :=
  { fPlane := 3, fCounter := 1
    GetData := fun _ _ => 0, GetAdcPedestal := fun _ => 0, GetMultiplicity := fun _ => 0 }

/-- An amplitude hit on channel 2: above the count of `exDet1` but
within capacity. -/
def exChan2Hit : THcTrigRawHit :=
  { fPlane := 1, fCounter := 2
    GetData := fun _ _ => 6, GetAdcPedestal := fun _ => 0, GetMultiplicity := fun _ => 1 }

/-- The three-hit list used to evaluate last-write-wins: two amplitude
hits on channel 1 with a timing hit between them. -/
def exHits3 : List THcTrigRawHit := [exAdcHit, exTdcHit, exAdcHit2]

/-- An amplitude hit on channel 200, beyond the fixed capacity of 100. -/
def exBigChanHit : THcTrigRawHit :=
  { fPlane := 1, fCounter := 200
    GetData := fun _ _ => 0, GetAdcPedestal := fun _ => 0, GetMultiplicity := fun _ => 0 }

theorem setBelow_lt (a : Nat → ℚ) (v : ℚ) {n i : Nat} (h : i < n) :
    setBelow a v n i = v := by
  induction n with
  | zero => omega
  | succ n ih =>
    by_cases hi : i = n
    · subst hi; simp [setBelow]
    · have h2 : i < n := by omega
      simp [setBelow, Function.update_noteq hi, ih h2]

theorem setBelow_ge (a : Nat → ℚ) (v : ℚ) {n i : Nat} (h : n ≤ i) :
    setBelow a v n i = a i := by
  induction n with
  | zero => rfl
  | succ n ih =>
    have hi : i ≠ n := by omega
    rw [setBelow, Function.update_noteq hi]
    exact ih (by omega)

theorem setBelow_setBelow (a : Nat → ℚ) (v : ℚ) (n : Nat) :
    setBelow (setBelow a v n) v n = setBelow a v n := by
  funext i
  by_cases h : i < n
  · rw [setBelow_lt _ _ h, setBelow_lt _ _ h]
  · rw [setBelow_ge _ _ (le_of_not_lt h), setBelow_ge _ _ (le_of_not_lt h)]

theorem decodeHit_ok (s : THcTrigDet) (hit : THcTrigRawHit)
    (hp : hit.fPlane = 1 ∨ hit.fPlane = 2) (hc1 : 1 ≤ hit.fCounter)
    (hc2 : hit.fCounter ≤ 100) :
    decodeHit s hit = .ok (stepHit s hit) := by
  have hcond : 0 ≤ hit.fCounter - 1 ∧ hit.fCounter - 1 < (100 : Int) := by omega
  rcases hp with h1 | h2
  · simp [decodeHit, stepHit, h1, write_amplitude, fMaxAdcChannels, hcond]
  · rcases eq_or_ne hit.fPlane 1 with h1 | h1
    · simp [decodeHit, stepHit, h1, write_amplitude, fMaxAdcChannels, hcond]
    · simp [decodeHit, stepHit, h1, h2, write_timing, fMaxTdcChannels, hcond]

theorem decode_ok_of_valid (s : THcTrigDet) (hits : List THcTrigRawHit)
    (hv : ∀ h ∈ hits, (h.fPlane = 1 ∨ h.fPlane = 2) ∧ 1 ≤ h.fCounter ∧ h.fCounter ≤ 100) :
    Decode s hits = (hits.foldl stepHit s, .ok 0) := by
  induction hits generalizing s with
  | nil => rfl
  | cons hit rest ih =>
    have h0 := hv hit (List.mem_cons_self hit rest)
    have heq := decodeHit_ok s hit h0.1 h0.2.1 h0.2.2
    simp only [Decode, heq, List.foldl_cons]
    exact ih (stepHit s hit) (fun h hm => hv h (List.mem_cons_of_mem _ hm))

theorem decodeHit_config (s s2 : THcTrigDet) (hit : THcTrigRawHit)
    (h : decodeHit s hit = .ok s2) :
    s2.fNumAdc = s.fNumAdc ∧ s2.fNumTdc = s.fNumTdc ∧
    s2.fAdcNames = s.fAdcNames ∧ s2.fTdcNames = s.fTdcNames := by
  unfold decodeHit write_amplitude write_timing at h
  split_ifs at h <;> simp_all <;> subst h <;> simp

theorem Decode_config (s : THcTrigDet) (hits : List THcTrigRawHit) :
    (Decode s hits).1.fNumAdc = s.fNumAdc ∧ (Decode s hits).1.fNumTdc = s.fNumTdc ∧
    (Decode s hits).1.fAdcNames = s.fAdcNames ∧ (Decode s hits).1.fTdcNames = s.fTdcNames := by
  induction hits generalizing s with
  | nil => exact ⟨rfl, rfl, rfl, rfl⟩
  | cons hit rest ih =>
    simp only [Decode]
    rcases heq : decodeHit s hit with e | s2
    · exact ⟨rfl, rfl, rfl, rfl⟩
    · have hc := decodeHit_config s s2 hit heq
      have hr := ih s2
      exact ⟨hr.1.trans hc.1, hr.2.1.trans hc.2.1, hr.2.2.1.trans hc.2.2.1,
        hr.2.2.2.trans hc.2.2.2⟩

theorem decode_append_plane_err (s : THcTrigDet) (pre post : List THcTrigRawHit)
    (bad : THcTrigRawHit)
    (hpre : ∀ h ∈ pre, (h.fPlane = 1 ∨ h.fPlane = 2) ∧ 1 ≤ h.fCounter ∧ h.fCounter ≤ 100)
    (hb1 : bad.fPlane ≠ 1) (hb2 : bad.fPlane ≠ 2) :
    Decode s (pre ++ bad :: post) = (pre.foldl stepHit s, .error .unsupportedPlaneError) := by
  induction pre generalizing s with
  | nil => simp [Decode, decodeHit, hb1, hb2]
  | cons hit rest ih =>
    have h0 := hpre hit (List.mem_cons_self hit rest)
    have heq := decodeHit_ok s hit h0.1 h0.2.1 h0.2.2
    simp only [List.cons_append, Decode, heq, List.foldl_cons]
    exact ih (stepHit s hit) (fun h hm => hpre h (List.mem_cons_of_mem _ hm))

theorem foldl_lastAdc (s : THcTrigDet) (hits : List THcTrigRawHit)
    (hc : ∀ h ∈ hits, 1 ≤ h.fCounter) (i : Nat) (hit : THcTrigRawHit)
    (hl : lastAdcHitFor hits i = some hit) :
    (hits.foldl stepHit s).fAdcVal i = hit.GetData 0 0 ∧
    (hits.foldl stepHit s).fAdcPedestal i = hit.GetAdcPedestal 0 ∧
    (hits.foldl stepHit s).fAdcMultiplicity i = hit.GetMultiplicity 0 := by
  induction hits using List.reverseRecOn with
  | nil => simp [lastAdcHitFor] at hl
  | append_singleton l a ih =>
    have hcl : ∀ h ∈ l, 1 ≤ h.fCounter := fun h hm => hc h (by simp [hm])
    have hca : 1 ≤ a.fCounter := hc a (by simp)
    rw [List.foldl_append, List.foldl_cons, List.foldl_nil]
    by_cases hm : (a.fPlane == 1 && a.fCounter == (i : Int) + 1) = true
    · have hm2 : a.fPlane = 1 ∧ a.fCounter = (i : Int) + 1 := by simpa using hm
      have hfin : lastAdcHitFor (l ++ [a]) i = some a := by
        simp [lastAdcHitFor, List.filter_append, hm]
      have ha : hit = a := by
        rw [hfin] at hl
        exact (Option.some_inj.mp hl).symm
      subst ha
      have hidx : (hit.fCounter - 1).toNat = i := by omega
      simp [stepHit, hm2.1, hidx]
    · have hfin : lastAdcHitFor (l ++ [a]) i = lastAdcHitFor l i := by
        simp [lastAdcHitFor, List.filter_append, hm]
      rw [hfin] at hl
      have hprev := ih hcl hl
      rcases eq_or_ne a.fPlane 1 with h1 | h1
      · have hne : a.fCounter ≠ (i : Int) + 1 := by
          intro hcontra
          exact hm (by simp [h1, hcontra])
        have hidx : a.fCounter.toNat - 1 ≠ i := by omega
        simpa [stepHit, h1, Function.update_noteq (Ne.symm hidx)] using hprev
      · rcases eq_or_ne a.fPlane 2 with h2 | h2
        · simpa [stepHit, h1, h2] using hprev
        · simpa [stepHit, h1, h2] using hprev

theorem foldl_lastTdc (s : THcTrigDet) (hits : List THcTrigRawHit)
    (hc : ∀ h ∈ hits, 1 ≤ h.fCounter) (i : Nat) (hit : THcTrigRawHit)
    (hl : lastTdcHitFor hits i = some hit) :
    (hits.foldl stepHit s).fTdcVal i = hit.GetData 1 0 ∧
    (hits.foldl stepHit s).fTdcMultiplicity i = hit.GetMultiplicity 1 := by
  induction hits using List.reverseRecOn with
  | nil => simp [lastTdcHitFor] at hl
  | append_singleton l a ih =>
    have hcl : ∀ h ∈ l, 1 ≤ h.fCounter := fun h hm => hc h (by simp [hm])
    have hca : 1 ≤ a.fCounter := hc a (by simp)
    rw [List.foldl_append, List.foldl_cons, List.foldl_nil]
    by_cases hm : (a.fPlane == 2 && a.fCounter == (i : Int) + 1) = true
    · have hm2 : a.fPlane = 2 ∧ a.fCounter = (i : Int) + 1 := by simpa using hm
      have h1 : a.fPlane ≠ 1 := by rw [hm2.1]; decide
      have hfin : lastTdcHitFor (l ++ [a]) i = some a := by
        simp [lastTdcHitFor, List.filter_append, hm]
      have ha : hit = a := by
        rw [hfin] at hl
        exact (Option.some_inj.mp hl).symm
      subst ha
      have hidx : (hit.fCounter - 1).toNat = i := by omega
      simp [stepHit, h1, hm2.1, hidx]
    · have hfin : lastTdcHitFor (l ++ [a]) i = lastTdcHitFor l i := by
        simp [lastTdcHitFor, List.filter_append, hm]
      rw [hfin] at hl
      have hprev := ih hcl hl
      rcases eq_or_ne a.fPlane 2 with h2 | h2
      · have h1 : a.fPlane ≠ 1 := by rw [h2]; decide
        have hne : a.fCounter ≠ (i : Int) + 1 := by
          intro hcontra
          exact hm (by simp [h2, hcontra])
        have hidx : a.fCounter.toNat - 1 ≠ i := by omega
        simpa [stepHit, h1, h2, Function.update_noteq (Ne.symm hidx)] using hprev
      · rcases eq_or_ne a.fPlane 1 with h1 | h1
        · simpa [stepHit, h1] using hprev
        · simpa [stepHit, h1, h2] using hprev

/-- C1 counterexample: with one configured ADC channel, a plane-1 hit on
channel 2 — outside `[1, count]` — decodes without any error (the store
bound is the fixed capacity, not the configured count), so decode does
not fail with `IndexError` for every channel outside `[1, count]`. -/
theorem decode_accepts_channel_above_count :
    exDet1.fNumAdc = 1 ∧ exChan2Hit.fPlane = 1 ∧ exChan2Hit.fCounter = 2 ∧
    (Decode exDet1 [exChan2Hit]).2 = Except.ok 0 :=
  ⟨rfl, rfl, rfl, rfl⟩

/-- C1 (amended): for a hit list whose planes are all in `{1, 2}`, if
some hit's channel number lies outside `[1, capacity]` (capacity = 100
for both kinds), decode fails with an `IndexError`: the store write is
bounds-checked against the fixed capacity and neither clamps nor drops
the hit, while channels in `(count, capacity]` are accepted. -/
theorem decode_indexError_out_of_capacity (s : THcTrigDet) (hits : List THcTrigRawHit)
    (hp : ∀ h ∈ hits, h.fPlane = 1 ∨ h.fPlane = 2)
    (hex : ∃ h ∈ hits, h.fCounter < 1 ∨ 100 < h.fCounter) :
    ∃ s2, Decode s hits = (s2, .error .indexError) := by
  induction hits generalizing s with
  | nil => simp at hex
  | cons hit rest ih =>
    have h0 := hp hit (List.mem_cons_self hit rest)
    by_cases hok : 1 ≤ hit.fCounter ∧ hit.fCounter ≤ 100
    · have heq := decodeHit_ok s hit h0 hok.1 hok.2
      simp only [Decode, heq]
      apply ih (stepHit s hit) (fun h hm => hp h (List.mem_cons_of_mem _ hm))
      rcases hex with ⟨h, hm, hr⟩
      rcases List.mem_cons.mp hm with rfl | hm2
      · omega
      · exact ⟨h, hm2, hr⟩
    · have hcond : ¬(0 ≤ hit.fCounter - 1 ∧ hit.fCounter - 1 < (100 : Int)) := by omega
      have herr : decodeHit s hit = .error .indexError := by
        rcases h0 with h1 | h2
        · simp [decodeHit, h1, write_amplitude, fMaxAdcChannels]
          omega
        · rcases eq_or_ne hit.fPlane 1 with h1 | h1
          · simp [decodeHit, h1, write_amplitude, fMaxAdcChannels]
            omega
          · simp [decodeHit, h1, h2, write_timing, fMaxTdcChannels]
            omega
      simp only [Decode, herr]
      exact ⟨s, rfl⟩

/-- C1 witness: on `exDet`, a plane-1 hit with channel 200 makes decode
fail with `IndexError`. -/
theorem decode_indexError_out_of_capacity_witness :
    ∃ s2, Decode exDet [exBigChanHit] = (s2, .error .indexError) :=
  decode_indexError_out_of_capacity exDet [exBigChanHit] (by decide)
    ⟨exBigChanHit, by simp, by decide⟩

/-- C2 counterexample: `exDetPed` has one configured ADC channel and
pedestal 5 in slot 0; the per-event reset leaves that pedestal at 5, so
it does not zero the pedestal field for every index in `[0, count)`. -/
theorem clear_keeps_pedestal :
    (0 : Nat) < exDetPed.fNumAdc.toNat ∧
    (Clear exDetPed).fAdcPedestal 0 = 5 ∧ (5 : ℚ) ≠ 0 :=
  ⟨by decide, rfl, by norm_num⟩

/-- C2 (amended): the per-event reset zeroes only the value fields for
indices `[0, count)` of each kind; the amplitude pedestal and the
multiplicities of both kinds are left entirely unchanged. -/
theorem clear_zeroes_values_only (s : THcTrigDet) :
    (∀ i, i < s.fNumAdc.toNat → (Clear s).fAdcVal i = 0) ∧
    (∀ i, i < s.fNumTdc.toNat → (Clear s).fTdcVal i = 0) ∧
    (Clear s).fAdcPedestal = s.fAdcPedestal ∧
    (Clear s).fAdcMultiplicity = s.fAdcMultiplicity ∧
    (Clear s).fTdcMultiplicity = s.fTdcMultiplicity :=
  ⟨fun _ h => setBelow_lt _ _ h, fun _ h => setBelow_lt _ _ h, rfl, rfl, rfl⟩

/-- C2 witness: on `exDetPed` (count 1, value 3 in slot 0), the reset
zeroes the value slot 0. -/
theorem clear_zeroes_values_only_witness :
    (0 : Nat) < exDetPed.fNumAdc.toNat ∧ (Clear exDetPed).fAdcVal 0 = 0 :=
  ⟨by decide, (clear_zeroes_values_only exDetPed).1 0 (by decide)⟩

/-- C3: for a hit list with only planes in `{1, 2}` and channels in
`[1, count]` for the hit's kind (counts within capacity), decode
succeeds, and each `(kind, index)` slot holds the samples of the last
hit in input order for that pair: for amplitude the value sample of
sub-signal 0, its pedestal and its multiplicity; for timing the value
sample of sub-signal 1 and its multiplicity. -/
theorem decode_last_write_wins (s : THcTrigDet) (hits : List THcTrigRawHit)
    (hA : s.fNumAdc ≤ 100) (hT : s.fNumTdc ≤ 100)
    (hv : ∀ h ∈ hits,
      (h.fPlane = 1 ∧ 1 ≤ h.fCounter ∧ h.fCounter ≤ s.fNumAdc) ∨
      (h.fPlane = 2 ∧ 1 ≤ h.fCounter ∧ h.fCounter ≤ s.fNumTdc)) :
    (Decode s hits).2 = Except.ok 0 ∧
    (∀ i : Nat, ∀ hit, lastAdcHitFor hits i = some hit →
      (Decode s hits).1.fAdcVal i = hit.GetData 0 0 ∧
      (Decode s hits).1.fAdcPedestal i = hit.GetAdcPedestal 0 ∧
      (Decode s hits).1.fAdcMultiplicity i = hit.GetMultiplicity 0) ∧
    (∀ i : Nat, ∀ hit, lastTdcHitFor hits i = some hit →
      (Decode s hits).1.fTdcVal i = hit.GetData 1 0 ∧
      (Decode s hits).1.fTdcMultiplicity i = hit.GetMultiplicity 1) := by
  have hcap : ∀ h ∈ hits,
      (h.fPlane = 1 ∨ h.fPlane = 2) ∧ 1 ≤ h.fCounter ∧ h.fCounter ≤ 100 := by
    intro h hm
    rcases hv h hm with ⟨h1, hc1, hc2⟩ | ⟨h2, hc1, hc2⟩
    · exact ⟨Or.inl h1, hc1, by omega⟩
    · exact ⟨Or.inr h2, hc1, by omega⟩
  have hcnt : ∀ h ∈ hits, 1 ≤ h.fCounter := fun h hm => ((hcap h hm).2).1
  rw [decode_ok_of_valid s hits hcap]
  exact ⟨rfl, fun i hit hl => foldl_lastAdc s hits hcnt i hit hl,
    fun i hit hl => foldl_lastTdc s hits hcnt i hit hl⟩

/-- C3 witness: decoding `[exAdcHit, exTdcHit, exAdcHit2]` on `exDet`
succeeds; ADC slot 0 holds the later amplitude hit's value 7 and TDC
slot 0 holds the timing hit's value 9. -/
theorem decode_last_write_wins_witness :
    (Decode exDet exHits3).2 = Except.ok 0 ∧
    (Decode exDet exHits3).1.fAdcVal 0 = 7 ∧
    (Decode exDet exHits3).1.fTdcVal 0 = 9 := by
  have h := decode_last_write_wins exDet exHits3 (by decide) (by decide) (by decide)
  exact ⟨h.1, (h.2.1 0 exAdcHit2 rfl).1.trans rfl, (h.2.2 0 exTdcHit rfl).1.trans rfl⟩

/-- C4: when every hit before the first unsupported-plane hit is valid
(plane in `{1, 2}`, channel within capacity), decode fails with
`UnsupportedPlaneError` at that hit, and the resulting store is exactly
the store decode would produce from the preceding hits alone: nothing is
written for the offending hit or for any hit after it. -/
theorem decode_fail_fast_unsupported_plane (s : THcTrigDet)
    (pre post : List THcTrigRawHit) (bad : THcTrigRawHit)
    (hpre : ∀ h ∈ pre, (h.fPlane = 1 ∨ h.fPlane = 2) ∧ 1 ≤ h.fCounter ∧ h.fCounter ≤ 100)
    (hb1 : bad.fPlane ≠ 1) (hb2 : bad.fPlane ≠ 2) :
    Decode s (pre ++ bad :: post) = ((Decode s pre).1, .error .unsupportedPlaneError) := by
  rw [decode_append_plane_err s pre post bad hpre hb1 hb2, decode_ok_of_valid s pre hpre]

/-- C4 witness: on `exDet`, the list `[exAdcHit, exBadPlaneHit, exTdcHit]`
fails with `UnsupportedPlaneError`, leaving exactly the state produced by
`[exAdcHit]`. -/
theorem decode_fail_fast_unsupported_plane_witness :
    Decode exDet ([exAdcHit] ++ exBadPlaneHit :: [exTdcHit]) =
      ((Decode exDet [exAdcHit]).1, .error .unsupportedPlaneError) :=
  decode_fail_fast_unsupported_plane exDet [exAdcHit] [exTdcHit] exBadPlaneHit
    (by decide) (by decide) (by decide)

/-- C5: the per-event reset leaves every slot at index at or beyond the
configured count unchanged for each kind — only slots below the count
are modified, and the higher slots keep whatever initialization or the
previous event put there. -/
theorem clear_frame_beyond_count (s : THcTrigDet) :
    (∀ i, s.fNumAdc.toNat ≤ i → (Clear s).fAdcVal i = s.fAdcVal i ∧
      (Clear s).fAdcPedestal i = s.fAdcPedestal i ∧
      (Clear s).fAdcMultiplicity i = s.fAdcMultiplicity i) ∧
    (∀ i, s.fNumTdc.toNat ≤ i → (Clear s).fTdcVal i = s.fTdcVal i ∧
      (Clear s).fTdcMultiplicity i = s.fTdcMultiplicity i) :=
  ⟨fun _ h => ⟨setBelow_ge _ _ h, rfl, rfl⟩, fun _ h => ⟨setBelow_ge _ _ h, rfl⟩⟩

/-- C5 witness: on `exDetPed` (count 1), slot 1 keeps its prior value 3
across the reset, as does the TDC slot 0 (TDC count 0). -/
theorem clear_frame_beyond_count_witness :
    (Clear exDetPed).fAdcVal 1 = exDetPed.fAdcVal 1 ∧
    (Clear exDetPed).fTdcVal 0 = exDetPed.fTdcVal 0 :=
  ⟨((clear_frame_beyond_count exDetPed).1 1 (by decide)).1,
   ((clear_frame_beyond_count exDetPed).2 0 (by decide)).1⟩

/-- C6: whenever decode completes without an error, the returned status
code is the success sentinel `0`, whatever the hit list was. -/
theorem decode_success_returns_zero (s : THcTrigDet) (hits : List THcTrigRawHit)
    (h : ∃ r, (Decode s hits).2 = .ok r) :
    (Decode s hits).2 = .ok 0 := by
  induction hits generalizing s with
  | nil => rfl
  | cons hit rest ih =>
    rcases h with ⟨r, hr⟩
    rcases heq : decodeHit s hit with e | s2
    · exfalso
      have herr : (Decode s (hit :: rest)).2 = Except.error e := by
        simp only [Decode, heq]
      rw [herr] at hr
      exact Except.noConfusion hr
    · have hok : Decode s (hit :: rest) = Decode s2 rest := by
        simp only [Decode, heq]
      rw [hok] at hr ⊢
      exact ih s2 ⟨r, hr⟩

/-- C6 witness: decoding `[exAdcHit, exTdcHit]` on `exDet` completes and
returns `0`. -/
theorem decode_success_returns_zero_witness :
    (Decode exDet [exAdcHit, exTdcHit]).2 = Except.ok 0 :=
  decode_success_returns_zero exDet [exAdcHit, exTdcHit] ⟨0, rfl⟩

/-- C7: initialization sets every value slot of both kinds, over the
entire fixed capacity (all indices in `[0, capacity)`, not just
`[0, count)`), to the sentinel `-1.0`. -/
theorem init_sets_sentinel (s : THcTrigDet) :
    (∀ i, i < fMaxAdcChannels → (Init s).fAdcVal i = -1) ∧
    (∀ i, i < fMaxTdcChannels → (Init s).fTdcVal i = -1) :=
  ⟨fun _ h => setBelow_lt _ _ h, fun _ h => setBelow_lt _ _ h⟩

/-- C7 witness: slot 99 — beyond `exDet`'s counts of 2 and 1 but within
capacity — is set to `-1` for both kinds. -/
theorem init_sets_sentinel_witness :
    (Init exDet).fAdcVal 99 = -1 ∧ (Init exDet).fTdcVal 99 = -1 :=
  ⟨(init_sets_sentinel exDet).1 99 (by decide), (init_sets_sentinel exDet).2 99 (by decide)⟩

/-- C8: the per-event reset is idempotent — applying it twice with no
intervening decode yields exactly the state of applying it once. -/
theorem clear_idempotent (s : THcTrigDet) : Clear (Clear s) = Clear s := by
  unfold Clear
  simp [setBelow_setBelow]

/-- C9: neither decode nor the per-event reset modifies the
configuration: the channel counts `fNumAdc` / `fNumTdc` and the name
lists `fAdcNames` / `fTdcNames` are unchanged by every `Clear` and every
`Decode` call. -/
theorem decode_clear_preserve_config (s : THcTrigDet) (hits : List THcTrigRawHit) :
    (Clear s).fNumAdc = s.fNumAdc ∧ (Clear s).fNumTdc = s.fNumTdc ∧
    (Clear s).fAdcNames = s.fAdcNames ∧ (Clear s).fTdcNames = s.fTdcNames ∧
    (Decode s hits).1.fNumAdc = s.fNumAdc ∧ (Decode s hits).1.fNumTdc = s.fNumTdc ∧
    (Decode s hits).1.fAdcNames = s.fAdcNames ∧ (Decode s hits).1.fTdcNames = s.fTdcNames := by
  have h := Decode_config s hits
  exact ⟨rfl, rfl, rfl, rfl, h.1, h.2.1, h.2.2.1, h.2.2.2⟩

/-- C10: decode is not atomic on the unsupported-plane error — the store
it leaves behind is the fold of the writes of all hits before the
offending one (which themselves decode successfully), not the pre-call
state. -/
theorem decode_error_keeps_prior_writes (s : THcTrigDet)
    (pre post : List THcTrigRawHit) (bad : THcTrigRawHit)
    (hpre : ∀ h ∈ pre, (h.fPlane = 1 ∨ h.fPlane = 2) ∧ 1 ≤ h.fCounter ∧ h.fCounter ≤ 100)
    (hb1 : bad.fPlane ≠ 1) (hb2 : bad.fPlane ≠ 2) :
    (Decode s (pre ++ bad :: post)).1 = pre.foldl stepHit s ∧
    Decode s pre = (pre.foldl stepHit s, .ok 0) := by
  constructor
  · rw [decode_append_plane_err s pre post bad hpre hb1 hb2]
  · exact decode_ok_of_valid s pre hpre

/-- C10 witness: aborting on `exBadPlaneHit` after `exAdcHit2` leaves the
store holding `exAdcHit2`'s write. -/
theorem decode_error_keeps_prior_writes_witness :
    (Decode exDet ([exAdcHit2] ++ exBadPlaneHit :: [])).1 =
      [exAdcHit2].foldl stepHit exDet ∧
    Decode exDet [exAdcHit2] = ([exAdcHit2].foldl stepHit exDet, Except.ok 0) :=
  decode_error_keeps_prior_writes exDet [exAdcHit2] [] exBadPlaneHit
    (by decide) (by decide) (by decide)

end HcTrig
